import Mathlib

/-!
# Verification of the solana-energy-trading ledger core

Shallow embedding of the core ledger state model and operations of
`src/lib.rs` (double-auction energy marketplace).  Machine integers (`u64`)
are modelled as `Nat` together with the checked operations used by the
source (`checked_add`, `checked_sub`, `checked_mul`), which fail exactly
when the mathematical result leaves `[0, 2^64)`.  `Pubkey` values are
opaque identities, modelled as `Nat`.  Fallible operations return
`Except ProgramError _`; the hosting environment persists the returned
ledger on success and leaves the stored ledger untouched on error, which
is modelled by `persist`.

The account-decoding / owner checks and borsh (de)serialization are the
out-of-scope glue of the program; the embedding starts from the decoded
`Ledger` value, exactly as the specification scopes the core.
-/

namespace EnergyMarket

/-- The `u64` range bound: checked arithmetic fails at `2 ^ 64`. -/
def U64LIMIT : Nat := 2 ^ 64

/-- `u64::checked_add`: `none` exactly when the sum leaves the `u64` range. -/
def checked_add (a b : Nat) : Option Nat :=
  if a + b < U64LIMIT then some (a + b) else none

/-- `u64::checked_sub`: `none` exactly when the subtraction would underflow. -/
def checked_sub (a b : Nat) : Option Nat :=
  if b ≤ a then some (a - b) else none

/-- `u64::checked_mul`: `none` exactly when the product leaves the `u64` range. -/
def checked_mul (a b : Nat) : Option Nat :=
  if a * b < U64LIMIT then some (a * b) else none

/-- `enum ParticipantType` of the source. -/
inductive ParticipantType where
  | Producer
  | Consumer
  | Prosumer
deriving DecidableEq, Repr

/-- `struct Participant` of the source; `id : Pubkey` is an opaque identity. -/
structure Participant where
  id : Nat
  participant_type : ParticipantType
  wallet_balance : Nat
deriving DecidableEq, Repr

/-- `struct EnergyProduction` of the source (a production lot). -/
structure EnergyProduction where
  producer_id : Nat
  energy_amount : Nat
  price : Nat
deriving DecidableEq, Repr

/-- `struct EnergyDemand` of the source (a demand request). -/
structure EnergyDemand where
  consumer_id : Nat
  energy_amount : Nat
  price_limit : Nat
deriving DecidableEq, Repr

/-- `struct Transaction` of the source (a settled trade).  The source field
`from` is a Lean keyword and is rendered `from_`. -/
structure Transaction where
  from_ : Nat
  to_ : Nat
  amount : Nat
  price : Nat
  timestamp : Int
deriving DecidableEq, Repr

/-- `struct Ledger` of the source: the root aggregate. -/
structure Ledger where
  participants : List Participant
  productions : List EnergyProduction
  demands : List EnergyDemand
  transactions : List Transaction
deriving DecidableEq, Repr

/-- The `ProgramError` variants the core operations can produce. -/
inductive ProgramError where
  | IncorrectProgramId
  | InvalidAccountData
  | ArithmeticOverflow
  | InsufficientFunds
deriving DecidableEq, Repr

/-- `ledger.participants.iter().find(|p| p.id == pid)`: first participant
record with the given identity. -/
def findParticipant (parts : List Participant) (pid : Nat) : Option Participant :=
  parts.find? (fun p => p.id == pid)

/-- Wallet balance of the first participant record with the given identity. -/
def balOf (parts : List Participant) (pid : Nat) : Option Nat :=
  (findParticipant parts pid).map (fun p => p.wallet_balance)

/-- Write balance `b` into the first participant record whose id is `pid`
(the record a `iter_mut().find` would have mutated); all other records are
untouched. -/
def setFirstBalance : List Participant → Nat → Nat → List Participant
  | [], _, _ => []
  | p :: rest, pid, b =>
    if p.id == pid then { p with wallet_balance := b } :: rest
    else p :: setFirstBalance rest pid b

/-- Stable insertion (descending by `key`): the new element passes over
exactly the strictly greater keys, so it lands before every previously
present element with an equal or smaller key. -/
def insertDescK (key : α → Nat) (a : α) : List α → List α
  | [] => [a]
  | b :: rest => if key a < key b then b :: insertDescK key a rest else a :: b :: rest

/-- Stable sort, descending by `key`.  `Vec::sort_by` is a stable sort; a
stable sort's output is determined by the comparator and input order, so this
insertion sort computes exactly the list the source's sort produces. -/
def sortDescK (key : α → Nat) : List α → List α
  | [] => []
  | a :: rest => insertDescK key a (sortDescK key rest)

/-- Stable insertion (ascending by `key`). -/
def insertAscK (key : α → Nat) (a : α) : List α → List α
  | [] => [a]
  | b :: rest => if key b < key a then b :: insertAscK key a rest else a :: b :: rest

/-- Stable sort, ascending by `key` (see `sortDescK`). -/
def sortAscK (key : α → Nat) : List α → List α
  | [] => []
  | a :: rest => insertAscK key a (sortAscK key rest)

/-- `ledger.demands.sort_by(|a, b| b.energy_amount.cmp(&a.energy_amount))`:
stable sort of the demand book, descending by remaining amount. -/
def sortDemands (ds : List EnergyDemand) : List EnergyDemand :=
  sortDescK (fun d => d.energy_amount) ds

/-- `ledger.productions.sort_by(|a, b| a.price.cmp(&b.price))`: stable sort
of the production book, ascending by unit price. -/
def sortProductions (ps : List EnergyProduction) : List EnergyProduction :=
  sortAscK (fun p => p.price) ps

/-- One iteration of the inner matching loop body (src/lib.rs:219-256), for a
current demand `d`, current production lot `p` and participant list `parts`:
the clearing test, checked cost computation, participant lookup, balance
check, and — on success — the settlement (debit, credit, decrement of both
remaining amounts, trade record stamped `now`).

The source's two simultaneous `iter_mut().find` borrows are rendered as the
sequential debit-then-credit they perform: the credit reads the producer's
balance after the consumer's debit, so when the two identities coincide the
credit applies to the already-debited record. -/
def clearStep (d : EnergyDemand) (p : EnergyProduction) (parts : List Participant)
    (now : Int) :
    Except ProgramError (EnergyDemand × EnergyProduction × List Participant × Option Transaction) :=
  if d.energy_amount ≤ p.energy_amount ∧ d.price_limit ≥ p.price then
    let trade_amount := Nat.min d.energy_amount p.energy_amount
    let trade_price := p.price
    match checked_mul trade_amount trade_price with
    | none => .error ProgramError.ArithmeticOverflow
    | some total_cost =>
      match findParticipant parts d.consumer_id, findParticipant parts p.producer_id with
      | some consumer, some producer =>
        if consumer.wallet_balance ≥ total_cost then
          match checked_sub consumer.wallet_balance total_cost with
          | none => .error ProgramError.ArithmeticOverflow
          | some newConsumerBal =>
            let parts1 := setFirstBalance parts d.consumer_id newConsumerBal
            let producerBal :=
              if p.producer_id == d.consumer_id then newConsumerBal
              else producer.wallet_balance
            match checked_add producerBal total_cost with
            | none => .error ProgramError.ArithmeticOverflow
            | some newProducerBal =>
              let parts2 := setFirstBalance parts1 p.producer_id newProducerBal
              match checked_sub d.energy_amount trade_amount,
                    checked_sub p.energy_amount trade_amount with
              | some dRem, some pRem =>
                .ok ({ d with energy_amount := dRem },
                     { p with energy_amount := pRem },
                     parts2,
                     some { from_ := d.consumer_id, to_ := p.producer_id,
                            amount := trade_amount, price := trade_price,
                            timestamp := now })
              | _, _ => .error ProgramError.ArithmeticOverflow
        else
          .ok (d, p, parts, none)
      | _, _ => .ok (d, p, parts, none)
  else
    .ok (d, p, parts, none)

/-- The inner loop `for production in &mut ledger.productions` for one demand:
walks the production lots in order, threading the demand, lots and
participants, and breaking as soon as the demand's remaining amount is 0. -/
def innerLoop (d : EnergyDemand) (ps : List EnergyProduction)
    (parts : List Participant) (now : Int) :
    Except ProgramError (EnergyDemand × List EnergyProduction × List Participant × List Transaction) :=
  match ps with
  | [] => .ok (d, [], parts, [])
  | p :: rest =>
    if d.energy_amount = 0 then
      .ok (d, p :: rest, parts, [])
    else
      match clearStep d p parts now with
      | .error e => .error e
      | .ok (d1, p1, parts1, o) =>
        match innerLoop d1 rest parts1 now with
        | .error e => .error e
        | .ok (d2, rest2, parts2, ts2) => .ok (d2, p1 :: rest2, parts2, o.toList ++ ts2)

/-- The outer loop `for demand in &mut ledger.demands`: runs the inner loop
for each demand in order, threading the production book and participants. -/
def outerLoop (ds : List EnergyDemand) (ps : List EnergyProduction)
    (parts : List Participant) (now : Int) :
    Except ProgramError (List EnergyDemand × List EnergyProduction × List Participant × List Transaction) :=
  match ds with
  | [] => .ok ([], ps, parts, [])
  | d :: rest =>
    match innerLoop d ps parts now with
    | .error e => .error e
    | .ok (d1, ps1, parts1, ts1) =>
      match outerLoop rest ps1 parts1 now with
      | .error e => .error e
      | .ok (rest2, ps2, parts2, ts2) => .ok (d1 :: rest2, ps2, parts2, ts1 ++ ts2)

/-- `match_transactions` (src/lib.rs:199-267), from the decoded ledger: sort
both books (stably), run the nested matching loops, drop exhausted lots and
demands (`retain(.. > 0)`), and append the matched trades to the settlement
log.  `now` is the clock value used to stamp trades. -/
def matchTransactions (l : Ledger) (now : Int) : Except ProgramError Ledger :=
  match outerLoop (sortDemands l.demands) (sortProductions l.productions)
      l.participants now with
  | .error e => .error e
  | .ok (ds, ps, parts, trades) =>
    .ok { participants := parts,
          productions := ps.filter (fun p => decide (0 < p.energy_amount)),
          demands := ds.filter (fun d => decide (0 < d.energy_amount)),
          transactions := l.transactions ++ trades }

/-- `deposit` (src/lib.rs:269-290), from the decoded ledger: checked credit of
the first participant record with the caller's identity; an unregistered
identity is `InvalidAccountData` (the code's error for an unknown
participant). -/
def deposit (l : Ledger) (pid : Nat) (amount : Nat) : Except ProgramError Ledger :=
  match findParticipant l.participants pid with
  | none => .error ProgramError.InvalidAccountData
  | some participant =>
    match checked_add participant.wallet_balance amount with
    | none => .error ProgramError.ArithmeticOverflow
    | some b => .ok { l with participants := setFirstBalance l.participants pid b }

/-- The hosting environment serializes the returned ledger only on success;
on an error nothing is written back, so the persisted state is the input. -/
def persist (l : Ledger) (r : Except ProgramError Ledger) : Ledger :=
  match r with
  | .ok l2 => l2
  | .error _ => l

/-- The (time-independent) condition under which the loop body leaves a
demand/lot pair untouched and moves on: the clearing test fails, or the cost
is computable but one of the participant records is missing or the consumer
cannot afford the cost. -/
def pairSkips (d : EnergyDemand) (p : EnergyProduction) (parts : List Participant) : Prop :=
  ¬(d.energy_amount ≤ p.energy_amount ∧ d.price_limit ≥ p.price) ∨
  ∃ cost, checked_mul (Nat.min d.energy_amount p.energy_amount) p.price = some cost ∧
    (findParticipant parts d.consumer_id = none ∨
     findParticipant parts p.producer_id = none ∨
     ∃ c, findParticipant parts d.consumer_id = some c ∧ c.wallet_balance < cost)

/-- Frame relation between participant lists across a (partial) matching
pass producing trades `ts`: record-for-record, identity and role are
unchanged, and the wallet balance of any participant whose identity appears
in no trade of `ts` is unchanged. -/
def FramePres (ts : List Transaction) (parts parts2 : List Participant) : Prop :=
  List.Forall₂ (fun a b => a.id = b.id ∧ a.participant_type = b.participant_type ∧
    ((∀ t ∈ ts, t.from_ ≠ a.id ∧ t.to_ ≠ a.id) → a.wallet_balance = b.wallet_balance))
    parts parts2

/-! ## Lemmas about the stable sorts -/

theorem mem_insertDescK (key : α → Nat) (a x : α) (l : List α) :
    x ∈ insertDescK key a l ↔ x = a ∨ x ∈ l := by
  induction l with
  | nil => simp [insertDescK]
  | cons b rest ih =>
    by_cases h : key a < key b
    · simp only [insertDescK, if_pos h, List.mem_cons, ih]
      tauto
    · simp only [insertDescK, if_neg h, List.mem_cons]

theorem pairwise_insertDescK (key : α → Nat) (a : α) (l : List α)
    (h : l.Pairwise (fun x y => key y ≤ key x)) :
    (insertDescK key a l).Pairwise (fun x y => key y ≤ key x) := by
  induction l with
  | nil => simp [insertDescK]
  | cons b rest ih =>
    rcases List.pairwise_cons.mp h with ⟨hb, hrest⟩
    by_cases hab : key a < key b
    · rw [insertDescK, if_pos hab]
      refine List.pairwise_cons.mpr ⟨?_, ih hrest⟩
      intro x hx
      rcases (mem_insertDescK key a x rest).mp hx with rfl | hx
      · exact Nat.le_of_lt hab
      · exact hb x hx
    · rw [insertDescK, if_neg hab]
      refine List.pairwise_cons.mpr ⟨?_, h⟩
      intro x hx
      rcases List.mem_cons.mp hx with rfl | hx
      · exact Nat.le_of_not_lt hab
      · exact le_trans (hb x hx) (Nat.le_of_not_lt hab)

theorem pairwise_sortDescK (key : α → Nat) (l : List α) :
    (sortDescK key l).Pairwise (fun x y => key y ≤ key x) := by
  induction l with
  | nil => exact List.Pairwise.nil
  | cons a rest ih => exact pairwise_insertDescK key a _ ih

theorem filter_insertDescK (key : α → Nat) (k : Nat) (a : α) (l : List α) :
    (insertDescK key a l).filter (fun x => key x == k) =
      if key a == k then a :: l.filter (fun x => key x == k)
      else l.filter (fun x => key x == k) := by
  induction l with
  | nil => simp only [insertDescK, List.filter_cons, List.filter_nil]
  | cons b rest ih =>
    by_cases hab : key a < key b
    · rw [insertDescK, if_pos hab, List.filter_cons, ih]
      by_cases hak : key a = k
      · have hbk : ¬ key b = k := by omega
        simp [hak, hbk, List.filter_cons]
      · by_cases hbk : key b = k <;> simp [hak, hbk, List.filter_cons]
    · rw [insertDescK, if_neg hab, List.filter_cons, List.filter_cons]

theorem filter_sortDescK (key : α → Nat) (k : Nat) (l : List α) :
    (sortDescK key l).filter (fun x => key x == k) =
      l.filter (fun x => key x == k) := by
  induction l with
  | nil => rfl
  | cons a rest ih =>
    rw [sortDescK, filter_insertDescK, ih, List.filter_cons]

theorem insertDescK_of_forall (key : α → Nat) (a : α) (l : List α)
    (h : ∀ x ∈ l, key x ≤ key a) : insertDescK key a l = a :: l := by
  cases l with
  | nil => rfl
  | cons b rest =>
    rw [insertDescK, if_neg]
    exact Nat.not_lt.mpr (h b (List.mem_cons_self b rest))

theorem sortDescK_of_pairwise (key : α → Nat) (l : List α)
    (h : l.Pairwise (fun x y => key y ≤ key x)) : sortDescK key l = l := by
  induction l with
  | nil => rfl
  | cons a rest ih =>
    rcases List.pairwise_cons.mp h with ⟨ha, hrest⟩
    rw [sortDescK, ih hrest, insertDescK_of_forall key a rest ha]

theorem mem_insertAscK (key : α → Nat) (a x : α) (l : List α) :
    x ∈ insertAscK key a l ↔ x = a ∨ x ∈ l := by
  induction l with
  | nil => simp [insertAscK]
  | cons b rest ih =>
    by_cases h : key b < key a
    · simp only [insertAscK, if_pos h, List.mem_cons, ih]
      tauto
    · simp only [insertAscK, if_neg h, List.mem_cons]

theorem pairwise_insertAscK (key : α → Nat) (a : α) (l : List α)
    (h : l.Pairwise (fun x y => key x ≤ key y)) :
    (insertAscK key a l).Pairwise (fun x y => key x ≤ key y) := by
  induction l with
  | nil => simp [insertAscK]
  | cons b rest ih =>
    rcases List.pairwise_cons.mp h with ⟨hb, hrest⟩
    by_cases hab : key b < key a
    · rw [insertAscK, if_pos hab]
      refine List.pairwise_cons.mpr ⟨?_, ih hrest⟩
      intro x hx
      rcases (mem_insertAscK key a x rest).mp hx with rfl | hx
      · exact Nat.le_of_lt hab
      · exact hb x hx
    · rw [insertAscK, if_neg hab]
      refine List.pairwise_cons.mpr ⟨?_, h⟩
      intro x hx
      rcases List.mem_cons.mp hx with rfl | hx
      · exact Nat.le_of_not_lt hab
      · exact le_trans (Nat.le_of_not_lt hab) (hb x hx)

theorem pairwise_sortAscK (key : α → Nat) (l : List α) :
    (sortAscK key l).Pairwise (fun x y => key x ≤ key y) := by
  induction l with
  | nil => exact List.Pairwise.nil
  | cons a rest ih => exact pairwise_insertAscK key a _ ih

theorem filter_insertAscK (key : α → Nat) (k : Nat) (a : α) (l : List α) :
    (insertAscK key a l).filter (fun x => key x == k) =
      if key a == k then a :: l.filter (fun x => key x == k)
      else l.filter (fun x => key x == k) := by
  induction l with
  | nil => simp only [insertAscK, List.filter_cons, List.filter_nil]
  | cons b rest ih =>
    by_cases hab : key b < key a
    · rw [insertAscK, if_pos hab, List.filter_cons, ih]
      by_cases hak : key a = k
      · have hbk : ¬ key b = k := by omega
        simp [hak, hbk, List.filter_cons]
      · by_cases hbk : key b = k <;> simp [hak, hbk, List.filter_cons]
    · rw [insertAscK, if_neg hab, List.filter_cons, List.filter_cons]

theorem filter_sortAscK (key : α → Nat) (k : Nat) (l : List α) :
    (sortAscK key l).filter (fun x => key x == k) =
      l.filter (fun x => key x == k) := by
  induction l with
  | nil => rfl
  | cons a rest ih =>
    rw [sortAscK, filter_insertAscK, ih, List.filter_cons]

theorem insertAscK_of_forall (key : α → Nat) (a : α) (l : List α)
    (h : ∀ x ∈ l, key a ≤ key x) : insertAscK key a l = a :: l := by
  cases l with
  | nil => rfl
  | cons b rest =>
    rw [insertAscK, if_neg]
    exact Nat.not_lt.mpr (h b (List.mem_cons_self b rest))

theorem sortAscK_of_pairwise (key : α → Nat) (l : List α)
    (h : l.Pairwise (fun x y => key x ≤ key y)) : sortAscK key l = l := by
  induction l with
  | nil => rfl
  | cons a rest ih =>
    rcases List.pairwise_cons.mp h with ⟨ha, hrest⟩
    rw [sortAscK, ih hrest, insertAscK_of_forall key a rest ha]

/-! ## Lemmas about participant lookup and balance updates -/

theorem find_setFirstBalance_self (parts : List Participant) (pid b : Nat)
    (c : Participant) (h : findParticipant parts pid = some c) :
    findParticipant (setFirstBalance parts pid b) pid =
      some { c with wallet_balance := b } := by
  induction parts with
  | nil => simp [findParticipant] at h
  | cons q rest ih =>
    by_cases hq : q.id = pid
    · rw [findParticipant, List.find?_cons_of_pos _ (by simpa using hq)] at h
      rw [setFirstBalance, if_pos (by simpa using hq), findParticipant,
        List.find?_cons_of_pos _ (by simpa using hq)]
      cases h
      rfl
    · rw [findParticipant, List.find?_cons_of_neg _ (by simpa using hq)] at h
      rw [setFirstBalance, if_neg (by simpa using hq), findParticipant,
        List.find?_cons_of_neg _ (by simpa using hq)]
      exact ih h

theorem find_setFirstBalance_ne (parts : List Participant) (qid pid b : Nat)
    (hne : qid ≠ pid) :
    findParticipant (setFirstBalance parts qid b) pid = findParticipant parts pid := by
  induction parts with
  | nil => rfl
  | cons q rest ih =>
    by_cases hq : q.id = qid
    · have hqpid : ¬ q.id = pid := by rw [hq]; exact hne
      rw [setFirstBalance, if_pos (by simpa using hq), findParticipant,
        List.find?_cons_of_neg _ (by simpa using hqpid), findParticipant,
        List.find?_cons_of_neg _ (by simpa using hqpid)]
    · rw [setFirstBalance, if_neg (by simpa using hq)]
      by_cases hqpid : q.id = pid
      · rw [findParticipant, List.find?_cons_of_pos _ (by simpa using hqpid),
          findParticipant, List.find?_cons_of_pos _ (by simpa using hqpid)]
      · rw [findParticipant, List.find?_cons_of_neg _ (by simpa using hqpid),
          findParticipant, List.find?_cons_of_neg _ (by simpa using hqpid)]
        exact ih

theorem setFirstBalance_pointwise (parts : List Participant) (pid b : Nat) :
    List.Forall₂
      (fun a c => a.id = c.id ∧ a.participant_type = c.participant_type ∧
        (a.id ≠ pid → a.wallet_balance = c.wallet_balance))
      parts (setFirstBalance parts pid b) := by
  induction parts with
  | nil => exact List.Forall₂.nil
  | cons q rest ih =>
    by_cases hq : q.id = pid
    · rw [setFirstBalance, if_pos (by simpa using hq)]
      exact List.Forall₂.cons ⟨rfl, rfl, fun hne => absurd hq hne⟩
        (List.forall₂_same.mpr (fun a _ => ⟨rfl, rfl, fun _ => rfl⟩))
    · rw [setFirstBalance, if_neg (by simpa using hq)]
      exact List.Forall₂.cons ⟨rfl, rfl, fun _ => rfl⟩ ih

/-! ## Lemmas about the matching loop body -/

theorem clearStep_error (d : EnergyDemand) (p : EnergyProduction)
    (parts : List Participant) (now : Int) (e : ProgramError)
    (h : clearStep d p parts now = .error e) :
    e = ProgramError.ArithmeticOverflow := by
  unfold clearStep at h
  repeat' split at h
  all_goals simp_all
  all_goals (repeat' split at h)
  all_goals simp_all

theorem clearStep_none (d : EnergyDemand) (p : EnergyProduction)
    (parts : List Participant) (now : Int) (d1 : EnergyDemand)
    (p1 : EnergyProduction) (parts1 : List Participant)
    (h : clearStep d p parts now = .ok (d1, p1, parts1, none)) :
    d1 = d ∧ p1 = p ∧ parts1 = parts := by
  unfold clearStep at h
  repeat' split at h
  all_goals simp_all
  all_goals (repeat' split at h)
  all_goals simp_all

theorem clearStep_some_spec (d : EnergyDemand) (p : EnergyProduction)
    (parts : List Participant) (now : Int) (d1 : EnergyDemand)
    (p1 : EnergyProduction) (parts1 : List Participant) (t : Transaction)
    (h : clearStep d p parts now = .ok (d1, p1, parts1, some t)) :
    p.price ≤ d.price_limit ∧ d.energy_amount ≤ p.energy_amount ∧
    t.price = p.price ∧ t.amount = d.energy_amount ∧
    t.from_ = d.consumer_id ∧ t.to_ = p.producer_id ∧ t.timestamp = now := by
  unfold clearStep at h
  repeat' split at h
  all_goals simp_all
  all_goals (repeat' split at h)
  all_goals simp_all
  all_goals (obtain ⟨h1, h2, h3, ht⟩ := h)
  all_goals (subst ht)
  all_goals simp

theorem clearStep_of_pairSkips (d : EnergyDemand) (p : EnergyProduction)
    (parts : List Participant) (h : pairSkips d p parts) (now : Int) :
    clearStep d p parts now = .ok (d, p, parts, none) := by
  unfold clearStep
  rcases h with hc | ⟨cost, hmul, hcase⟩
  · rw [if_neg hc]
  · by_cases hc : d.energy_amount ≤ p.energy_amount ∧ d.price_limit ≥ p.price
    · rw [if_pos hc]
      rcases hcase with h1 | h1 | ⟨c, hfind, hbal⟩
      · simp [hmul, h1]
      · cases hf1 : findParticipant parts d.consumer_id <;> simp [hmul, h1, hf1]
      · cases hf2 : findParticipant parts p.producer_id <;>
          simp [hmul, hfind, hf2, Nat.not_le.mpr hbal]
    · rw [if_neg hc]

theorem pairSkips_of_clearStep_none (d : EnergyDemand) (p : EnergyProduction)
    (parts : List Participant) (now : Int) (d1 : EnergyDemand)
    (p1 : EnergyProduction) (parts1 : List Participant)
    (h : clearStep d p parts now = .ok (d1, p1, parts1, none)) :
    pairSkips d p parts := by
  unfold clearStep at h
  by_cases hc : d.energy_amount ≤ p.energy_amount ∧ d.price_limit ≥ p.price
  case neg => exact Or.inl hc
  rw [if_pos hc] at h
  cases hmul : checked_mul (Nat.min d.energy_amount p.energy_amount) p.price with
  | none => simp [hmul] at h
  | some cost =>
    refine Or.inr ⟨cost, hmul, ?_⟩
    cases hf1 : findParticipant parts d.consumer_id with
    | none => exact Or.inl rfl
    | some c =>
      cases hf2 : findParticipant parts p.producer_id with
      | none => exact Or.inr (Or.inl rfl)
      | some pr =>
        refine Or.inr (Or.inr ⟨c, rfl, ?_⟩)
        by_cases hb : c.wallet_balance ≥ cost
        · exfalso
          simp only [hmul, hf1, hf2] at h
          rw [if_pos hb] at h
          repeat' split at h
          all_goals simp_all
        · exact Nat.not_le.mp hb

theorem checked_mul_some {a b c : Nat} (h : checked_mul a b = some c) :
    c = a * b ∧ a * b < U64LIMIT := by
  unfold checked_mul at h
  split at h
  · cases h; exact ⟨rfl, by assumption⟩
  · cases h

theorem checked_add_some {a b c : Nat} (h : checked_add a b = some c) :
    c = a + b ∧ a + b < U64LIMIT := by
  unfold checked_add at h
  split at h
  · cases h; exact ⟨rfl, by assumption⟩
  · cases h

theorem checked_sub_some {a b c : Nat} (h : checked_sub a b = some c) :
    c = a - b ∧ b ≤ a := by
  unfold checked_sub at h
  split at h
  · cases h; exact ⟨rfl, by assumption⟩
  · cases h

/-- Full characterization of a loop-body iteration that settles a trade. -/
theorem clearStep_some_elim (d : EnergyDemand) (p : EnergyProduction)
    (parts : List Participant) (now : Int) (d1 : EnergyDemand)
    (p1 : EnergyProduction) (parts1 : List Participant) (t : Transaction)
    (h : clearStep d p parts now = .ok (d1, p1, parts1, some t)) :
    ∃ cost consumer producer,
      checked_mul (Nat.min d.energy_amount p.energy_amount) p.price = some cost ∧
      findParticipant parts d.consumer_id = some consumer ∧
      findParticipant parts p.producer_id = some producer ∧
      cost ≤ consumer.wallet_balance ∧
      t = { from_ := d.consumer_id, to_ := p.producer_id,
            amount := Nat.min d.energy_amount p.energy_amount,
            price := p.price, timestamp := now } ∧
      parts1 =
        setFirstBalance
          (setFirstBalance parts d.consumer_id (consumer.wallet_balance - cost))
          p.producer_id
          ((if p.producer_id = d.consumer_id then consumer.wallet_balance - cost
            else producer.wallet_balance) + cost) ∧
      (if p.producer_id = d.consumer_id then consumer.wallet_balance - cost
        else producer.wallet_balance) + cost < U64LIMIT := by
  unfold clearStep at h
  by_cases hc : d.energy_amount ≤ p.energy_amount ∧ d.price_limit ≥ p.price
  case neg => rw [if_neg hc] at h; simp at h
  rw [if_pos hc] at h
  cases hmul : checked_mul (Nat.min d.energy_amount p.energy_amount) p.price with
  | none => simp [hmul] at h
  | some cost =>
  simp only [hmul] at h
  cases hf1 : findParticipant parts d.consumer_id with
  | none => simp [hf1] at h
  | some c =>
  cases hf2 : findParticipant parts p.producer_id with
  | none => simp [hf1, hf2] at h
  | some pr =>
  simp only [hf1, hf2] at h
  by_cases hb : c.wallet_balance ≥ cost
  case neg => rw [if_neg hb] at h; simp at h
  rw [if_pos hb] at h
  simp only [show checked_sub c.wallet_balance cost = some (c.wallet_balance - cost) from by
    unfold checked_sub; rw [if_pos hb]] at h
  by_cases hpd : p.producer_id = d.consumer_id
  · simp only [show (if (p.producer_id == d.consumer_id) = true
        then c.wallet_balance - cost else pr.wallet_balance) = c.wallet_balance - cost from by
      simp [hpd]] at h
    cases hadd : checked_add (c.wallet_balance - cost) cost with
    | none => simp [hadd] at h
    | some np =>
    simp only [hadd,
      show checked_sub d.energy_amount (Nat.min d.energy_amount p.energy_amount) =
          some (d.energy_amount - Nat.min d.energy_amount p.energy_amount) from by
        unfold checked_sub; rw [if_pos (Nat.min_le_left _ _)],
      show checked_sub p.energy_amount (Nat.min d.energy_amount p.energy_amount) =
          some (p.energy_amount - Nat.min d.energy_amount p.energy_amount) from by
        unfold checked_sub; rw [if_pos (Nat.min_le_right _ _)],
      Except.ok.injEq, Prod.mk.injEq, Option.some.injEq] at h
    obtain ⟨hd1, hp1, hparts, htr⟩ := h
    obtain ⟨hnp, hlim⟩ := checked_add_some hadd
    refine ⟨cost, c, pr, rfl, rfl, rfl, hb, htr.symm, ?_, ?_⟩
    · rw [← hparts, if_pos hpd, ← hnp]
    · rw [if_pos hpd]; exact hlim
  · simp only [show (if (p.producer_id == d.consumer_id) = true
        then c.wallet_balance - cost else pr.wallet_balance) = pr.wallet_balance from by
      simp [hpd]] at h
    cases hadd : checked_add pr.wallet_balance cost with
    | none => simp [hadd] at h
    | some np =>
    simp only [hadd,
      show checked_sub d.energy_amount (Nat.min d.energy_amount p.energy_amount) =
          some (d.energy_amount - Nat.min d.energy_amount p.energy_amount) from by
        unfold checked_sub; rw [if_pos (Nat.min_le_left _ _)],
      show checked_sub p.energy_amount (Nat.min d.energy_amount p.energy_amount) =
          some (p.energy_amount - Nat.min d.energy_amount p.energy_amount) from by
        unfold checked_sub; rw [if_pos (Nat.min_le_right _ _)],
      Except.ok.injEq, Prod.mk.injEq, Option.some.injEq] at h
    obtain ⟨hd1, hp1, hparts, htr⟩ := h
    obtain ⟨hnp, hlim⟩ := checked_add_some hadd
    refine ⟨cost, c, pr, rfl, rfl, rfl, hb, htr.symm, ?_, ?_⟩
    · rw [← hparts, if_neg hpd, ← hnp]
    · rw [if_neg hpd]; exact hlim

/-! ## Frame preservation machinery -/

theorem forall2_trans {α : Type} {R S T : α → α → Prop}
    (hcomp : ∀ a b c, R a b → S b c → T a c) :
    ∀ {l1 l2 l3 : List α}, List.Forall₂ R l1 l2 → List.Forall₂ S l2 l3 →
      List.Forall₂ T l1 l3 := by
  intro l1 l2 l3 h1
  induction h1 generalizing l3 with
  | nil =>
    intro h2
    cases h2
    exact List.Forall₂.nil
  | cons hab h1 ih =>
    intro h2
    cases h2 with
    | cons hbc h2 => exact List.Forall₂.cons (hcomp _ _ _ hab hbc) (ih h2)

theorem framePres_refl (ts : List Transaction) (parts : List Participant) :
    FramePres ts parts parts :=
  List.forall₂_same.mpr (fun _ _ => ⟨rfl, rfl, fun _ => rfl⟩)

theorem framePres_append {ts1 ts2 : List Transaction} {l1 l2 l3 : List Participant}
    (h1 : FramePres ts1 l1 l2) (h2 : FramePres ts2 l2 l3) :
    FramePres (ts1 ++ ts2) l1 l3 := by
  refine forall2_trans ?_ h1 h2
  rintro a b c ⟨hid, hty, hbal⟩ ⟨hid2, hty2, hbal2⟩
  refine ⟨hid.trans hid2, hty.trans hty2, fun hun => ?_⟩
  have hun1 : ∀ t ∈ ts1, t.from_ ≠ a.id ∧ t.to_ ≠ a.id := fun t ht =>
    hun t (List.mem_append_left _ ht)
  have hun2 : ∀ t ∈ ts2, t.from_ ≠ b.id ∧ t.to_ ≠ b.id := by
    intro t ht
    rw [← hid]
    exact hun t (List.mem_append_right _ ht)
  exact (hbal hun1).trans (hbal2 hun2)

theorem framePres_double_set (parts : List Participant) (b1 b2 : Nat) (t : Transaction) :
    FramePres [t] parts
      (setFirstBalance (setFirstBalance parts t.from_ b1) t.to_ b2) := by
  refine forall2_trans ?_ (setFirstBalance_pointwise parts t.from_ b1)
    (setFirstBalance_pointwise (setFirstBalance parts t.from_ b1) t.to_ b2)
  rintro a b c ⟨hid, hty, hbal⟩ ⟨hid2, hty2, hbal2⟩
  refine ⟨hid.trans hid2, hty.trans hty2, fun hun => ?_⟩
  obtain ⟨hfrom, hto⟩ := hun t (List.mem_singleton_self t)
  have h1 : a.wallet_balance = b.wallet_balance := hbal (Ne.symm hfrom)
  have h2 : b.wallet_balance = c.wallet_balance :=
    hbal2 (fun he => hto (he.symm.trans hid.symm))
  exact h1.trans h2

theorem clearStep_frame (d : EnergyDemand) (p : EnergyProduction)
    (parts : List Participant) (now : Int) (d1 : EnergyDemand)
    (p1 : EnergyProduction) (parts1 : List Participant) (o : Option Transaction)
    (h : clearStep d p parts now = .ok (d1, p1, parts1, o)) :
    FramePres o.toList parts parts1 := by
  cases o with
  | none =>
    obtain ⟨-, -, hp⟩ := clearStep_none d p parts now d1 p1 parts1 h
    subst hp
    simpa using framePres_refl [] _
  | some t =>
    obtain ⟨cost, c, pr, hmul, hf1, hf2, hb, htr, hparts, hlim⟩ :=
      clearStep_some_elim d p parts now d1 p1 parts1 t h
    have hfrom : t.from_ = d.consumer_id := by rw [htr]
    have hto : t.to_ = p.producer_id := by rw [htr]
    rw [hparts, Option.toList_some, ← hfrom, ← hto]
    exact framePres_double_set parts _ _ t

/-- Per-trade conservation at a settling loop-body iteration, for distinct
consumer and producer identities. -/
theorem clearStep_some_balances (d : EnergyDemand) (p : EnergyProduction)
    (parts : List Participant) (now : Int) (d1 : EnergyDemand)
    (p1 : EnergyProduction) (parts1 : List Participant) (t : Transaction)
    (h : clearStep d p parts now = .ok (d1, p1, parts1, some t))
    (hne : d.consumer_id ≠ p.producer_id) :
    ∃ b1 b2,
      balOf parts d.consumer_id = some b1 ∧
      balOf parts p.producer_id = some b2 ∧
      t.amount * t.price ≤ b1 ∧
      balOf parts1 d.consumer_id = some (b1 - t.amount * t.price) ∧
      balOf parts1 p.producer_id = some (b2 + t.amount * t.price) := by
  obtain ⟨cost, c, pr, hmul, hf1, hf2, hb, htr, hparts, hlim⟩ :=
    clearStep_some_elim d p parts now d1 p1 parts1 t h
  obtain ⟨hcost, hcostlim⟩ := checked_mul_some hmul
  have hcost2 : t.amount * t.price = cost := by rw [htr]; exact hcost.symm
  refine ⟨c.wallet_balance, pr.wallet_balance, ?_, ?_, ?_, ?_, ?_⟩
  · simp only [balOf, hf1, Option.map_some']
  · simp only [balOf, hf2, Option.map_some']
  · rw [hcost2]; exact hb
  · rw [hcost2, hparts]
    simp only [balOf]
    rw [find_setFirstBalance_ne _ _ _ _ (Ne.symm hne),
      find_setFirstBalance_self parts d.consumer_id _ c hf1]
    simp only [Option.map_some']
  · rw [hcost2, hparts]
    simp only [balOf]
    have hfind : findParticipant
        (setFirstBalance parts d.consumer_id (c.wallet_balance - cost))
        p.producer_id = some pr := by
      rw [find_setFirstBalance_ne _ _ _ _ hne]
      exact hf2
    rw [find_setFirstBalance_self _ p.producer_id _ pr hfind]
    simp only [Option.map_some']
    rw [if_neg (Ne.symm hne)]

/-! ## Lemmas about the matching loops -/

theorem innerLoop_error (d : EnergyDemand) (ps : List EnergyProduction)
    (parts : List Participant) (now : Int) (e : ProgramError)
    (h : innerLoop d ps parts now = .error e) :
    e = ProgramError.ArithmeticOverflow := by
  induction ps generalizing d parts with
  | nil => simp [innerLoop] at h
  | cons p rest ih =>
    rw [innerLoop] at h
    by_cases hz : d.energy_amount = 0
    · rw [if_pos hz] at h
      simp at h
    · rw [if_neg hz] at h
      cases hcs : clearStep d p parts now with
      | error e2 =>
        simp only [hcs] at h
        cases h
        exact clearStep_error d p parts now _ hcs
      | ok q =>
        obtain ⟨d1, p1, parts1, o⟩ := q
        simp only [hcs] at h
        cases hrec : innerLoop d1 rest parts1 now with
        | error e3 =>
          simp only [hrec] at h
          cases h
          exact ih d1 parts1 hrec
        | ok r =>
          obtain ⟨d2, rest2, parts2, ts2⟩ := r
          simp only [hrec] at h
          simp at h

theorem outerLoop_error (ds : List EnergyDemand) (ps : List EnergyProduction)
    (parts : List Participant) (now : Int) (e : ProgramError)
    (h : outerLoop ds ps parts now = .error e) :
    e = ProgramError.ArithmeticOverflow := by
  induction ds generalizing ps parts with
  | nil => simp [outerLoop] at h
  | cons d rest ih =>
    rw [outerLoop] at h
    cases hin : innerLoop d ps parts now with
    | error e2 =>
      simp only [hin] at h
      cases h
      exact innerLoop_error d ps parts now _ hin
    | ok q =>
      obtain ⟨d1, ps1, parts1, ts1⟩ := q
      simp only [hin] at h
      cases hrec : outerLoop rest ps1 parts1 now with
      | error e3 =>
        simp only [hrec] at h
        cases h
        exact ih ps1 parts1 hrec
      | ok r =>
        obtain ⟨rest2, ps2, parts2, ts2⟩ := r
        simp only [hrec] at h
        simp at h

theorem matchTransactions_error_eq (l : Ledger) (now : Int) (e : ProgramError)
    (h : matchTransactions l now = .error e) :
    e = ProgramError.ArithmeticOverflow := by
  unfold matchTransactions at h
  cases ho : outerLoop (sortDemands l.demands) (sortProductions l.productions)
      l.participants now with
  | error e2 =>
    simp only [ho] at h
    cases h
    exact outerLoop_error _ _ _ _ _ ho
  | ok r =>
    obtain ⟨ds, ps, parts, trades⟩ := r
    simp only [ho] at h
    simp at h

theorem innerLoop_frame (d : EnergyDemand) (ps : List EnergyProduction)
    (parts : List Participant) (now : Int) (d2 : EnergyDemand)
    (ps2 : List EnergyProduction) (parts2 : List Participant)
    (ts : List Transaction)
    (h : innerLoop d ps parts now = .ok (d2, ps2, parts2, ts)) :
    FramePres ts parts parts2 := by
  induction ps generalizing d parts d2 ps2 parts2 ts with
  | nil =>
    rw [innerLoop] at h
    cases h
    exact framePres_refl [] parts
  | cons p rest ih =>
    rw [innerLoop] at h
    by_cases hz : d.energy_amount = 0
    · rw [if_pos hz] at h
      cases h
      exact framePres_refl [] parts
    · rw [if_neg hz] at h
      cases hcs : clearStep d p parts now with
      | error e =>
        simp only [hcs] at h
        simp at h
      | ok q =>
        obtain ⟨d1, p1, parts1, o⟩ := q
        simp only [hcs] at h
        cases hrec : innerLoop d1 rest parts1 now with
        | error e =>
          simp only [hrec] at h
          simp at h
        | ok r =>
          obtain ⟨d2x, rest2, parts2x, ts2⟩ := r
          simp only [hrec] at h
          cases h
          exact framePres_append (clearStep_frame _ _ _ _ _ _ _ _ hcs)
            (ih _ _ _ _ _ _ hrec)

theorem outerLoop_frame (ds : List EnergyDemand) (ps : List EnergyProduction)
    (parts : List Participant) (now : Int) (ds2 : List EnergyDemand)
    (ps2 : List EnergyProduction) (parts2 : List Participant)
    (ts : List Transaction)
    (h : outerLoop ds ps parts now = .ok (ds2, ps2, parts2, ts)) :
    FramePres ts parts parts2 := by
  induction ds generalizing ps parts ds2 ps2 parts2 ts with
  | nil =>
    rw [outerLoop] at h
    cases h
    exact framePres_refl [] parts
  | cons d rest ih =>
    rw [outerLoop] at h
    cases hin : innerLoop d ps parts now with
    | error e =>
      simp only [hin] at h
      simp at h
    | ok q =>
      obtain ⟨d1, ps1, parts1, ts1⟩ := q
      simp only [hin] at h
      cases hrec : outerLoop rest ps1 parts1 now with
      | error e =>
        simp only [hrec] at h
        simp at h
      | ok r =>
        obtain ⟨rest2, ps2x, parts2x, ts2⟩ := r
        simp only [hrec] at h
        cases h
        exact framePres_append (innerLoop_frame _ _ _ _ _ _ _ _ hin)
          (ih _ _ _ _ _ _ hrec)

theorem innerLoop_trades (d : EnergyDemand) (ps : List EnergyProduction)
    (parts : List Participant) (now : Int) (d2 : EnergyDemand)
    (ps2 : List EnergyProduction) (parts2 : List Participant)
    (ts : List Transaction)
    (h : innerLoop d ps parts now = .ok (d2, ps2, parts2, ts))
    (t : Transaction) (ht : t ∈ ts) :
    ∃ d0 p0 parts0 d1 p1 parts1,
      clearStep d0 p0 parts0 now = .ok (d1, p1, parts1, some t) := by
  induction ps generalizing d parts d2 ps2 parts2 ts with
  | nil =>
    rw [innerLoop] at h
    cases h
    simp at ht
  | cons p rest ih =>
    rw [innerLoop] at h
    by_cases hz : d.energy_amount = 0
    · rw [if_pos hz] at h
      cases h
      simp at ht
    · rw [if_neg hz] at h
      cases hcs : clearStep d p parts now with
      | error e =>
        simp only [hcs] at h
        simp at h
      | ok q =>
        obtain ⟨d1, p1, parts1, o⟩ := q
        simp only [hcs] at h
        cases hrec : innerLoop d1 rest parts1 now with
        | error e =>
          simp only [hrec] at h
          simp at h
        | ok r =>
          obtain ⟨d2x, rest2, parts2x, ts2⟩ := r
          simp only [hrec] at h
          cases h
          rcases List.mem_append.mp ht with h1 | h2
          · cases o with
            | none => simp at h1
            | some tr =>
              rw [Option.toList_some, List.mem_singleton] at h1
              subst h1
              exact ⟨d, p, parts, d1, p1, parts1, hcs⟩
          · exact ih _ _ _ _ _ _ hrec h2

theorem outerLoop_trades (ds : List EnergyDemand) (ps : List EnergyProduction)
    (parts : List Participant) (now : Int) (ds2 : List EnergyDemand)
    (ps2 : List EnergyProduction) (parts2 : List Participant)
    (ts : List Transaction)
    (h : outerLoop ds ps parts now = .ok (ds2, ps2, parts2, ts))
    (t : Transaction) (ht : t ∈ ts) :
    ∃ d0 p0 parts0 d1 p1 parts1,
      clearStep d0 p0 parts0 now = .ok (d1, p1, parts1, some t) := by
  induction ds generalizing ps parts ds2 ps2 parts2 ts with
  | nil =>
    rw [outerLoop] at h
    cases h
    simp at ht
  | cons d rest ih =>
    rw [outerLoop] at h
    cases hin : innerLoop d ps parts now with
    | error e =>
      simp only [hin] at h
      simp at h
    | ok q =>
      obtain ⟨d1, ps1, parts1, ts1⟩ := q
      simp only [hin] at h
      cases hrec : outerLoop rest ps1 parts1 now with
      | error e =>
        simp only [hrec] at h
        simp at h
      | ok r =>
        obtain ⟨rest2, ps2x, parts2x, ts2⟩ := r
        simp only [hrec] at h
        cases h
        rcases List.mem_append.mp ht with h1 | h2
        · exact innerLoop_trades _ _ _ _ _ _ _ _ hin t h1
        · exact ih _ _ _ _ _ _ hrec h2

theorem innerLoop_no_trades (d : EnergyDemand) (ps : List EnergyProduction)
    (parts : List Participant) (now : Int) (d2 : EnergyDemand)
    (ps2 : List EnergyProduction) (parts2 : List Participant)
    (h : innerLoop d ps parts now = .ok (d2, ps2, parts2, [])) :
    d2 = d ∧ ps2 = ps ∧ parts2 = parts ∧
      (d.energy_amount = 0 ∨ ∀ p ∈ ps, pairSkips d p parts) := by
  induction ps generalizing d parts d2 ps2 parts2 with
  | nil =>
    rw [innerLoop] at h
    cases h
    exact ⟨rfl, rfl, rfl, Or.inr (by simp)⟩
  | cons p rest ih =>
    rw [innerLoop] at h
    by_cases hz : d.energy_amount = 0
    · rw [if_pos hz] at h
      cases h
      exact ⟨rfl, rfl, rfl, Or.inl hz⟩
    · rw [if_neg hz] at h
      cases hcs : clearStep d p parts now with
      | error e =>
        simp only [hcs] at h
        simp at h
      | ok q =>
        obtain ⟨d1, p1, parts1, o⟩ := q
        simp only [hcs] at h
        cases hrec : innerLoop d1 rest parts1 now with
        | error e =>
          simp only [hrec] at h
          simp at h
        | ok r =>
          obtain ⟨d2x, rest2, parts2x, ts2⟩ := r
          simp only [hrec] at h
          simp only [Except.ok.injEq, Prod.mk.injEq] at h
          obtain ⟨h1, h2, h3, h4⟩ := h
          obtain ⟨hts1, hts2⟩ := List.append_eq_nil.mp h4
          have ho : o = none := by
            cases o with
            | none => rfl
            | some tr => simp at hts1
          subst ho
          obtain ⟨hd1, hp1, hparts1⟩ := clearStep_none d p parts now d1 p1 parts1 hcs
          have hskip := pairSkips_of_clearStep_none d p parts now d1 p1 parts1 hcs
          subst hd1
          subst hp1
          subst hparts1
          subst hts2
          obtain ⟨hd2x, hrest2, hparts2x, hrest⟩ := ih _ _ _ _ _ hrec
          refine ⟨h1 ▸ hd2x, ?_, h3 ▸ hparts2x, Or.inr ?_⟩
          · rw [← h2, hrest2]
          · intro q hq
            rcases List.mem_cons.mp hq with rfl | hq2
            · exact hskip
            · rcases hrest with hz2 | hall
              · exact absurd hz2 hz
              · exact hall q hq2

theorem innerLoop_of_skips (d : EnergyDemand) (ps : List EnergyProduction)
    (parts : List Participant) (now : Int)
    (hs : d.energy_amount = 0 ∨ ∀ p ∈ ps, pairSkips d p parts) :
    innerLoop d ps parts now = .ok (d, ps, parts, []) := by
  induction ps with
  | nil => rw [innerLoop]
  | cons p rest ih =>
    rw [innerLoop]
    by_cases hz : d.energy_amount = 0
    · rw [if_pos hz]
    · rw [if_neg hz]
      rcases hs with hz2 | hall
      · exact absurd hz2 hz
      · simp only [clearStep_of_pairSkips d p parts (hall p (List.mem_cons_self p rest)) now,
          ih (Or.inr fun q hq => hall q (List.mem_cons_of_mem p hq))]
        simp

theorem outerLoop_no_trades (ds : List EnergyDemand) (ps : List EnergyProduction)
    (parts : List Participant) (now : Int) (ds2 : List EnergyDemand)
    (ps2 : List EnergyProduction) (parts2 : List Participant)
    (h : outerLoop ds ps parts now = .ok (ds2, ps2, parts2, [])) :
    ds2 = ds ∧ ps2 = ps ∧ parts2 = parts ∧
      ∀ d ∈ ds, d.energy_amount = 0 ∨ ∀ p ∈ ps, pairSkips d p parts := by
  induction ds generalizing ps parts ds2 ps2 parts2 with
  | nil =>
    rw [outerLoop] at h
    cases h
    exact ⟨rfl, rfl, rfl, by simp⟩
  | cons d rest ih =>
    rw [outerLoop] at h
    cases hin : innerLoop d ps parts now with
    | error e =>
      simp only [hin] at h
      simp at h
    | ok q =>
      obtain ⟨d1, ps1, parts1, ts1⟩ := q
      simp only [hin] at h
      cases hrec : outerLoop rest ps1 parts1 now with
      | error e =>
        simp only [hrec] at h
        simp at h
      | ok r =>
        obtain ⟨rest2, ps2x, parts2x, ts2⟩ := r
        simp only [hrec] at h
        simp only [Except.ok.injEq, Prod.mk.injEq] at h
        obtain ⟨h1, h2, h3, h4⟩ := h
        obtain ⟨hts1, hts2⟩ := List.append_eq_nil.mp h4
        subst hts1
        obtain ⟨hd1, hps1, hparts1, hskips⟩ :=
          innerLoop_no_trades d ps parts now d1 ps1 parts1 hin
        subst hd1
        subst hps1
        subst hparts1
        subst hts2
        obtain ⟨hrest2, hps2x, hparts2x, hrest⟩ := ih _ _ _ _ _ hrec
        refine ⟨?_, h2 ▸ hps2x, h3 ▸ hparts2x, ?_⟩
        · rw [← h1, hrest2]
        · intro q hq
          rcases List.mem_cons.mp hq with rfl | hq2
          · exact hskips
          · exact hrest q hq2

theorem outerLoop_of_skips (ds : List EnergyDemand) (ps : List EnergyProduction)
    (parts : List Participant) (now : Int)
    (hs : ∀ d ∈ ds, d.energy_amount = 0 ∨ ∀ p ∈ ps, pairSkips d p parts) :
    outerLoop ds ps parts now = .ok (ds, ps, parts, []) := by
  induction ds with
  | nil => rw [outerLoop]
  | cons d rest ih =>
    rw [outerLoop]
    simp only [innerLoop_of_skips d ps parts now (hs d (List.mem_cons_self d rest)),
      ih (fun q hq => hs q (List.mem_cons_of_mem d hq))]
    simp

theorem matchTransactions_ok_elim (l : Ledger) (now : Int) (l2 : Ledger)
    (h : matchTransactions l now = .ok l2) :
    ∃ ds ps parts trades,
      outerLoop (sortDemands l.demands) (sortProductions l.productions)
          l.participants now = .ok (ds, ps, parts, trades) ∧
      l2 = { participants := parts,
             productions := ps.filter (fun p => decide (0 < p.energy_amount)),
             demands := ds.filter (fun d => decide (0 < d.energy_amount)),
             transactions := l.transactions ++ trades } := by
  unfold matchTransactions at h
  cases ho : outerLoop (sortDemands l.demands) (sortProductions l.productions)
      l.participants now with
  | error e =>
    simp only [ho] at h
    simp at h
  | ok r =>
    obtain ⟨ds, ps, parts, trades⟩ := r
    simp only [ho] at h
    cases h
    exact ⟨ds, ps, parts, trades, rfl, rfl⟩

/-- Skipping a pair continues the scan: when the loop body leaves the state
unchanged and settles nothing, the inner loop on `p :: ps` computes exactly
the inner loop on `ps` with `p` put back in front. -/
theorem innerLoop_skip_cons (d : EnergyDemand) (p : EnergyProduction)
    (ps : List EnergyProduction) (parts : List Participant) (now : Int)
    (h : clearStep d p parts now = .ok (d, p, parts, none)) :
    innerLoop d (p :: ps) parts now =
      Except.map (fun r => (r.1, p :: r.2.1, r.2.2.1, r.2.2.2))
        (innerLoop d ps parts now) := by
  by_cases hz : d.energy_amount = 0
  · rw [innerLoop, if_pos hz]
    cases ps with
    | nil => rw [innerLoop]; rfl
    | cons q qs => rw [innerLoop, if_pos hz]; rfl
  · rw [innerLoop, if_neg hz]
    simp only [h]
    cases hrec : innerLoop d ps parts now with
    | error e => rfl
    | ok r =>
      obtain ⟨a, b, c2, ts⟩ := r
      rfl

/-! ## The claims -/

/-- C1: every Trade appended by a MatchTransactions pass arises from a
loop-body iteration (`clearStep`) at whose moment the demand price limit was
at least the lot price, the trade price equals the lot price, and the trade
amount equals the demand remaining amount, which was at most the lot
remaining amount. -/
theorem matchTransactions_trade_moment (l : Ledger) (now : Int) (l2 : Ledger)
    (t : Transaction)
    (hok : matchTransactions l now = .ok l2)
    (hmem : t ∈ l2.transactions) (hnew : t ∉ l.transactions) :
    ∃ d p parts d1 p1 parts1,
      clearStep d p parts now = .ok (d1, p1, parts1, some t) ∧
      p.price ≤ d.price_limit ∧ t.price = p.price ∧
      t.amount = d.energy_amount ∧ d.energy_amount ≤ p.energy_amount := by
  obtain ⟨ds, ps, parts, trades, ho, rfl⟩ := matchTransactions_ok_elim l now l2 hok
  have ht : t ∈ trades := by
    rcases List.mem_append.mp hmem with h1 | h2
    · exact absurd h1 hnew
    · exact h2
  obtain ⟨d0, p0, parts0, d1, p1, parts1, hcs⟩ :=
    outerLoop_trades _ _ _ _ _ _ _ _ ho t ht
  obtain ⟨hpl, hle, hpr, ham, -, -, -⟩ := clearStep_some_spec _ _ _ _ _ _ _ _ hcs
  exact ⟨d0, p0, parts0, d1, p1, parts1, hcs, hpl, hpr, ham, hle⟩

/-- C3: a failing MatchTransactions pass fails with ArithmeticOverflow (the
only error its checked arithmetic can raise) and the persisted ledger is the
unchanged input — no balance transfer from the pass survives. -/
theorem matchTransactions_overflow_atomic (l : Ledger) (now : Int)
    (e : ProgramError) (h : matchTransactions l now = .error e) :
    e = ProgramError.ArithmeticOverflow ∧ persist l (matchTransactions l now) = l := by
  refine ⟨matchTransactions_error_eq l now e h, ?_⟩
  rw [h]
  rfl

/-- C5: a clearing pair whose consumer cannot afford the cost is skipped
with no state change, and the scan continues with the next lot; no error is
raised for it. -/
theorem clearStep_insufficient_skip (d : EnergyDemand) (p : EnergyProduction)
    (parts : List Participant) (now : Int) (ps : List EnergyProduction)
    (cost : Nat) (c pr : Participant)
    (hle : d.energy_amount ≤ p.energy_amount)
    (hpl : d.price_limit ≥ p.price)
    (hmul : checked_mul d.energy_amount p.price = some cost)
    (hf1 : findParticipant parts d.consumer_id = some c)
    (hf2 : findParticipant parts p.producer_id = some pr)
    (hbal : c.wallet_balance < cost) :
    clearStep d p parts now = .ok (d, p, parts, none) ∧
    innerLoop d (p :: ps) parts now =
      Except.map (fun r => (r.1, p :: r.2.1, r.2.2.1, r.2.2.2))
        (innerLoop d ps parts now) := by
  have hmin : Nat.min d.energy_amount p.energy_amount = d.energy_amount :=
    Nat.min_eq_left hle
  have hskip : pairSkips d p parts :=
    Or.inr ⟨cost, by rw [hmin]; exact hmul, Or.inr (Or.inr ⟨c, hf1, hbal⟩)⟩
  have hcs := clearStep_of_pairSkips d p parts hskip now
  exact ⟨hcs, innerLoop_skip_cons d p ps parts now hcs⟩

/-- C7: after a successful MatchTransactions pass no production lot and no
demand request left in the book has remaining amount 0. -/
theorem matchTransactions_book_clean (l : Ledger) (now : Int) (l2 : Ledger)
    (h : matchTransactions l now = .ok l2) :
    (∀ p ∈ l2.productions, p.energy_amount ≠ 0) ∧
    (∀ d ∈ l2.demands, d.energy_amount ≠ 0) := by
  obtain ⟨ds, ps, parts, trades, ho, rfl⟩ := matchTransactions_ok_elim l now l2 h
  constructor
  · intro p hp
    have hfp := List.of_mem_filter hp
    simp at hfp
    omega
  · intro d hd
    have hfd := List.of_mem_filter hd
    simp at hfd
    omega

/-- C1 witness: the spec's example scenario 1 settles the trade
⟨from 1, to 2, amount 50, price 5⟩. -/
theorem matchTransactions_trade_moment_witness :
    ∃ d p parts d1 p1 parts1,
      clearStep d p parts 0 = .ok (d1, p1, parts1, some ⟨1, 2, 50, 5, 0⟩) ∧
      p.price ≤ d.price_limit ∧
      (⟨1, 2, 50, 5, 0⟩ : Transaction).price = p.price ∧
      (⟨1, 2, 50, 5, 0⟩ : Transaction).amount = d.energy_amount ∧
      d.energy_amount ≤ p.energy_amount :=
  matchTransactions_trade_moment
    ⟨[⟨1, .Consumer, 1000⟩, ⟨2, .Producer, 0⟩], [⟨2, 100, 5⟩], [⟨1, 50, 10⟩], []⟩ 0
    ⟨[⟨1, .Consumer, 750⟩, ⟨2, .Producer, 250⟩], [⟨2, 50, 5⟩], [], [⟨1, 2, 50, 5, 0⟩]⟩
    ⟨1, 2, 50, 5, 0⟩ rfl (by decide) (by decide)

/-- C3 witness: a book whose cheapest clearing pair costs `2^32 * 2^33`
overflows u64; the pass fails with ArithmeticOverflow and persists nothing. -/
theorem matchTransactions_overflow_atomic_witness :
    ProgramError.ArithmeticOverflow = ProgramError.ArithmeticOverflow ∧
    persist ⟨[], [⟨2, 2 ^ 32, 2 ^ 33⟩], [⟨1, 2 ^ 32, 2 ^ 33⟩], []⟩
        (matchTransactions ⟨[], [⟨2, 2 ^ 32, 2 ^ 33⟩], [⟨1, 2 ^ 32, 2 ^ 33⟩], []⟩ 0) =
      ⟨[], [⟨2, 2 ^ 32, 2 ^ 33⟩], [⟨1, 2 ^ 32, 2 ^ 33⟩], []⟩ :=
  matchTransactions_overflow_atomic
    ⟨[], [⟨2, 2 ^ 32, 2 ^ 33⟩], [⟨1, 2 ^ 32, 2 ^ 33⟩], []⟩ 0
    ProgramError.ArithmeticOverflow rfl

/-- C5 witness: the spec's example scenario 2 — consumer balance 10 cannot
afford cost 250; the pair is skipped, with no state change and no error. -/
theorem clearStep_insufficient_skip_witness :
    clearStep ⟨1, 50, 10⟩ ⟨2, 100, 5⟩ [⟨1, .Consumer, 10⟩, ⟨2, .Producer, 0⟩] 0 =
      .ok (⟨1, 50, 10⟩, ⟨2, 100, 5⟩, [⟨1, .Consumer, 10⟩, ⟨2, .Producer, 0⟩], none) ∧
    innerLoop ⟨1, 50, 10⟩ [⟨2, 100, 5⟩] [⟨1, .Consumer, 10⟩, ⟨2, .Producer, 0⟩] 0 =
      Except.map (fun r => (r.1, ⟨2, 100, 5⟩ :: r.2.1, r.2.2.1, r.2.2.2))
        (innerLoop ⟨1, 50, 10⟩ [] [⟨1, .Consumer, 10⟩, ⟨2, .Producer, 0⟩] 0) :=
  clearStep_insufficient_skip ⟨1, 50, 10⟩ ⟨2, 100, 5⟩
    [⟨1, .Consumer, 10⟩, ⟨2, .Producer, 0⟩] 0 [] 250
    ⟨1, .Consumer, 10⟩ ⟨2, .Producer, 0⟩
    (by decide) (by decide) (by decide) (by decide) (by decide) (by decide)

/-- C7 witness: scenario 1 fully consumes the demand; the surviving lot and
book entries all have positive remaining amount. -/
theorem matchTransactions_book_clean_witness :
    (∀ p ∈ (⟨[⟨1, .Consumer, 750⟩, ⟨2, .Producer, 250⟩], [⟨2, 50, 5⟩], [],
        [⟨1, 2, 50, 5, 0⟩]⟩ : Ledger).productions, p.energy_amount ≠ 0) ∧
    (∀ d ∈ (⟨[⟨1, .Consumer, 750⟩, ⟨2, .Producer, 250⟩], [⟨2, 50, 5⟩], [],
        [⟨1, 2, 50, 5, 0⟩]⟩ : Ledger).demands, d.energy_amount ≠ 0) :=
  matchTransactions_book_clean
    ⟨[⟨1, .Consumer, 1000⟩, ⟨2, .Producer, 0⟩], [⟨2, 100, 5⟩], [⟨1, 50, 10⟩], []⟩ 0
    ⟨[⟨1, .Consumer, 750⟩, ⟨2, .Producer, 250⟩], [⟨2, 50, 5⟩], [], [⟨1, 2, 50, 5, 0⟩]⟩
    rfl

/-- C2 counterexample: the book holds a clearing pair (demand 5 at limit 10
against lot 5 at price 1) but neither party has a Participant record; the
claim says the operation fails with InvalidAccountData, yet the pass
succeeds, changing nothing — the pair is silently skipped. -/
theorem matchTransactions_missing_participant_ok :
    matchTransactions ⟨[], [⟨2, 5, 1⟩], [⟨1, 5, 10⟩], []⟩ 0 =
      .ok ⟨[], [⟨2, 5, 1⟩], [⟨1, 5, 10⟩], []⟩ := rfl

/-- C2 (amended): when a clearing pair's consumer or producer record is not
found, the loop body silently skips the pair — no state change, no trade,
and no error; the matching operation continues. -/
theorem clearStep_missing_participant_skip (d : EnergyDemand)
    (p : EnergyProduction) (parts : List Participant) (now : Int) (cost : Nat)
    (hmul : checked_mul (Nat.min d.energy_amount p.energy_amount) p.price = some cost)
    (hmiss : findParticipant parts d.consumer_id = none ∨
             findParticipant parts p.producer_id = none) :
    clearStep d p parts now = .ok (d, p, parts, none) :=
  clearStep_of_pairSkips d p parts (Or.inr ⟨cost, hmul, hmiss.imp id Or.inl⟩) now

/-- C2 witness: the clearing pair of the counterexample book is skipped. -/
theorem clearStep_missing_participant_skip_witness :
    clearStep ⟨1, 5, 10⟩ ⟨2, 5, 1⟩ [] 0 = .ok (⟨1, 5, 10⟩, ⟨2, 5, 1⟩, [], none) :=
  clearStep_missing_participant_skip ⟨1, 5, 10⟩ ⟨2, 5, 1⟩ [] 0 5
    (by decide) (Or.inl (by decide))

/-- C6 counterexample: a prosumer matching its own lot.  The pass records
the trade ⟨from 1, to 1, amount 2, price 3⟩ with cost 6, yet the consumer's
balance is 100 both before and after settlement: the debit and credit hit
the same record and cancel, so the balance did not decrease by amount*price
(100 - 6 ≠ 100). -/
theorem matchTransactions_self_trade :
    matchTransactions ⟨[⟨1, .Prosumer, 100⟩], [⟨1, 2, 3⟩], [⟨1, 2, 3⟩], []⟩ 0 =
      .ok ⟨[⟨1, .Prosumer, 100⟩], [], [], [⟨1, 1, 2, 3, 0⟩]⟩ ∧
    (100 : Nat) - 2 * 3 ≠ 100 := ⟨rfl, by decide⟩

/-- C6 (amended): for a settled trade whose consumer and producer identities
are distinct, at the moment of settlement the consumer's balance decreases
by exactly amount*price and the producer's increases by exactly amount*price;
a self-trade (equal identities) instead leaves the single balance unchanged. -/
theorem clearStep_trade_conservation (d : EnergyDemand) (p : EnergyProduction)
    (parts : List Participant) (now : Int) (d1 : EnergyDemand)
    (p1 : EnergyProduction) (parts1 : List Participant) (t : Transaction)
    (h : clearStep d p parts now = .ok (d1, p1, parts1, some t))
    (hne : t.from_ ≠ t.to_) :
    ∃ b1 b2,
      balOf parts t.from_ = some b1 ∧
      balOf parts t.to_ = some b2 ∧
      t.amount * t.price ≤ b1 ∧
      balOf parts1 t.from_ = some (b1 - t.amount * t.price) ∧
      balOf parts1 t.to_ = some (b2 + t.amount * t.price) := by
  obtain ⟨-, -, -, -, hfrom, hto, -⟩ := clearStep_some_spec _ _ _ _ _ _ _ _ h
  rw [hfrom, hto] at hne ⊢
  exact clearStep_some_balances _ _ _ _ _ _ _ _ h hne

/-- C6 witness: consumer 1 pays producer 2 cost 6 = 2*3; balances go
50 → 44 and 7 → 13. -/
theorem clearStep_trade_conservation_witness :
    ∃ b1 b2,
      balOf [⟨1, .Consumer, 50⟩, ⟨2, .Producer, 7⟩]
          (⟨1, 2, 2, 3, 0⟩ : Transaction).from_ = some b1 ∧
      balOf [⟨1, .Consumer, 50⟩, ⟨2, .Producer, 7⟩]
          (⟨1, 2, 2, 3, 0⟩ : Transaction).to_ = some b2 ∧
      (⟨1, 2, 2, 3, 0⟩ : Transaction).amount * (⟨1, 2, 2, 3, 0⟩ : Transaction).price ≤ b1 ∧
      balOf [⟨1, .Consumer, 44⟩, ⟨2, .Producer, 13⟩]
          (⟨1, 2, 2, 3, 0⟩ : Transaction).from_ =
        some (b1 - (⟨1, 2, 2, 3, 0⟩ : Transaction).amount *
          (⟨1, 2, 2, 3, 0⟩ : Transaction).price) ∧
      balOf [⟨1, .Consumer, 44⟩, ⟨2, .Producer, 13⟩]
          (⟨1, 2, 2, 3, 0⟩ : Transaction).to_ =
        some (b2 + (⟨1, 2, 2, 3, 0⟩ : Transaction).amount *
          (⟨1, 2, 2, 3, 0⟩ : Transaction).price) :=
  clearStep_trade_conservation ⟨1, 2, 3⟩ ⟨2, 2, 3⟩
    [⟨1, .Consumer, 50⟩, ⟨2, .Producer, 7⟩] 0
    ⟨1, 0, 3⟩ ⟨2, 0, 3⟩ [⟨1, .Consumer, 44⟩, ⟨2, .Producer, 13⟩]
    ⟨1, 2, 2, 3, 0⟩ rfl (by decide)

/-- C9: the books a MatchTransactions pass works on are `sortDemands` /
`sortProductions` of the stored books: descending by remaining amount and
ascending by unit price respectively, and both sorts are stable — for every
key value, the subsequence of entries with that key is exactly the input's. -/
theorem matchTransactions_sort_spec (ds : List EnergyDemand)
    (ps : List EnergyProduction) :
    (sortDemands ds).Pairwise (fun a b => b.energy_amount ≤ a.energy_amount) ∧
    (∀ k, (sortDemands ds).filter (fun d => d.energy_amount == k) =
      ds.filter (fun d => d.energy_amount == k)) ∧
    (sortProductions ps).Pairwise (fun a b => a.price ≤ b.price) ∧
    (∀ k, (sortProductions ps).filter (fun p => p.price == k) =
      ps.filter (fun p => p.price == k)) :=
  ⟨pairwise_sortDescK _ ds, fun k => filter_sortDescK _ k ds,
   pairwise_sortAscK _ ps, fun k => filter_sortAscK _ k ps⟩

/-- C10: a successful pass only appends to the settlement log, and
record-for-record preserves every participant's identity and role, and the
balance of every participant whose identity occurs in no appended trade. -/
theorem matchTransactions_frame (l : Ledger) (now : Int) (l2 : Ledger)
    (h : matchTransactions l now = .ok l2) :
    ∃ newTrades,
      l2.transactions = l.transactions ++ newTrades ∧
      FramePres newTrades l.participants l2.participants := by
  obtain ⟨ds, ps, parts, trades, ho, rfl⟩ := matchTransactions_ok_elim l now l2 h
  exact ⟨trades, rfl, outerLoop_frame _ _ _ _ _ _ _ _ ho⟩

/-- C10 witness: a pass over a book with no demands changes nothing. -/
theorem matchTransactions_frame_witness :
    ∃ newTrades,
      (⟨[⟨9, .Producer, 3⟩], [⟨9, 4, 7⟩], [], []⟩ : Ledger).transactions =
        (⟨[⟨9, .Producer, 3⟩], [⟨9, 4, 7⟩], [], []⟩ : Ledger).transactions ++ newTrades ∧
      FramePres newTrades [⟨9, .Producer, 3⟩] [⟨9, .Producer, 3⟩] :=
  matchTransactions_frame ⟨[⟨9, .Producer, 3⟩], [⟨9, 4, 7⟩], [], []⟩ 0
    ⟨[⟨9, .Producer, 3⟩], [⟨9, 4, 7⟩], [], []⟩ rfl

/-- C8: deposit on an unregistered identity fails with the code's
unknown-participant error (`ProgramError::InvalidAccountData`) persisting no
change; on a registered identity the first matching record's balance grows
by the amount via checked addition, and a sum reaching 2^64 fails with
ArithmeticOverflow, again persisting no change. -/
theorem deposit_spec (l : Ledger) (pid amount : Nat) :
    (findParticipant l.participants pid = none →
      deposit l pid amount = .error ProgramError.InvalidAccountData ∧
      persist l (deposit l pid amount) = l) ∧
    (∀ c, findParticipant l.participants pid = some c →
      (c.wallet_balance + amount < U64LIMIT →
        deposit l pid amount =
          .ok { l with participants :=
                  setFirstBalance l.participants pid (c.wallet_balance + amount) }) ∧
      (U64LIMIT ≤ c.wallet_balance + amount →
        deposit l pid amount = .error ProgramError.ArithmeticOverflow ∧
        persist l (deposit l pid amount) = l)) := by
  constructor
  · intro hnone
    have hd : deposit l pid amount = .error ProgramError.InvalidAccountData := by
      unfold deposit
      simp only [hnone]
    refine ⟨hd, ?_⟩
    rw [hd]
    rfl
  · intro c hc
    constructor
    · intro hlt
      unfold deposit
      simp only [hc,
        show checked_add c.wallet_balance amount = some (c.wallet_balance + amount) from by
          unfold checked_add; rw [if_pos hlt]]
    · intro hge
      have hd : deposit l pid amount = .error ProgramError.ArithmeticOverflow := by
        unfold deposit
        simp only [hc,
          show checked_add c.wallet_balance amount = none from by
            unfold checked_add; rw [if_neg (Nat.not_lt.mpr hge)]]
      refine ⟨hd, ?_⟩
      rw [hd]
      rfl

/-- C8 witness: the three behaviours at concrete inputs — unknown identity,
successful credit, and overflow at the u64 ceiling. -/
theorem deposit_spec_witness :
    (deposit ⟨[⟨7, .Consumer, 5⟩], [], [], []⟩ 8 10 =
        .error ProgramError.InvalidAccountData ∧
      persist ⟨[⟨7, .Consumer, 5⟩], [], [], []⟩
          (deposit ⟨[⟨7, .Consumer, 5⟩], [], [], []⟩ 8 10) =
        ⟨[⟨7, .Consumer, 5⟩], [], [], []⟩) ∧
    deposit ⟨[⟨7, .Consumer, 5⟩], [], [], []⟩ 7 10 =
      .ok ⟨[⟨7, .Consumer, 15⟩], [], [], []⟩ ∧
    deposit ⟨[⟨7, .Consumer, 2 ^ 64 - 1⟩], [], [], []⟩ 7 2 =
      .error ProgramError.ArithmeticOverflow :=
  ⟨(deposit_spec ⟨[⟨7, .Consumer, 5⟩], [], [], []⟩ 8 10).1 rfl,
   ((deposit_spec ⟨[⟨7, .Consumer, 5⟩], [], [], []⟩ 7 10).2 ⟨7, .Consumer, 5⟩ rfl).1
     (by decide),
   (((deposit_spec ⟨[⟨7, .Consumer, 2 ^ 64 - 1⟩], [], [], []⟩ 7 2).2
       ⟨7, .Consumer, 2 ^ 64 - 1⟩ rfl).2 (by decide)).1⟩

/-- C4 counterexample: two prosumers, both books ⟨id 1: 10 at 5⟩, ⟨id 2: 10
at 5⟩; participant 1 starts broke.  The first pass settles one trade (2 buys
from 1, funding 1 with 50); the second pass, with no intervening operations,
settles a further trade (1 can now afford 2's lot) — the second invocation
does not append zero trades. -/
theorem matchTransactions_second_pass_trade :
    matchTransactions ⟨[⟨1, .Prosumer, 0⟩, ⟨2, .Prosumer, 60⟩],
        [⟨1, 10, 5⟩, ⟨2, 10, 5⟩], [⟨1, 10, 5⟩, ⟨2, 10, 5⟩], []⟩ 0 =
      .ok ⟨[⟨1, .Prosumer, 50⟩, ⟨2, .Prosumer, 10⟩], [⟨2, 10, 5⟩], [⟨1, 10, 5⟩],
        [⟨2, 1, 10, 5, 0⟩]⟩ ∧
    matchTransactions ⟨[⟨1, .Prosumer, 50⟩, ⟨2, .Prosumer, 10⟩], [⟨2, 10, 5⟩],
        [⟨1, 10, 5⟩], [⟨2, 1, 10, 5, 0⟩]⟩ 0 =
      .ok ⟨[⟨1, .Prosumer, 0⟩, ⟨2, .Prosumer, 60⟩], [], [],
        [⟨2, 1, 10, 5, 0⟩, ⟨1, 2, 10, 5, 0⟩]⟩ := ⟨rfl, rfl⟩

/-- C4 (amended): re-invoking MatchTransactions after a pass that appended
zero new Trades returns the intermediate ledger unchanged — in particular it
appends zero new Trades.  (After a pass that did settle trades, a funded
consumer can clear again, as the counterexample shows.) -/
theorem matchTransactions_idempotent_of_no_trades (l : Ledger) (t1 t2 : Int)
    (l1 : Ledger) (h1 : matchTransactions l t1 = .ok l1)
    (hz : l1.transactions = l.transactions) :
    matchTransactions l1 t2 = .ok l1 := by
  obtain ⟨ds, ps, parts, trades, ho, hl1⟩ := matchTransactions_ok_elim l t1 l1 h1
  have htr : trades = [] := by
    rw [hl1] at hz
    have hz2 : l.transactions ++ trades = l.transactions := hz
    have hlen := congrArg List.length hz2
    rw [List.length_append] at hlen
    have : trades.length = 0 := by omega
    exact List.length_eq_zero.mp this
  subst htr
  obtain ⟨hds, hps, hparts, hall⟩ := outerLoop_no_trades _ _ _ _ _ _ _ ho
  subst hds
  subst hps
  subst hparts
  subst hl1
  have hD : sortDemands ((sortDemands l.demands).filter
      (fun d => decide (0 < d.energy_amount))) =
      (sortDemands l.demands).filter (fun d => decide (0 < d.energy_amount)) :=
    sortDescK_of_pairwise _ _
      ((pairwise_sortDescK (fun d => d.energy_amount) l.demands).sublist
        (List.filter_sublist _))
  have hP : sortProductions ((sortProductions l.productions).filter
      (fun p => decide (0 < p.energy_amount))) =
      (sortProductions l.productions).filter (fun p => decide (0 < p.energy_amount)) :=
    sortAscK_of_pairwise _ _
      ((pairwise_sortAscK (fun p => p.price) l.productions).sublist
        (List.filter_sublist _))
  have hsk : ∀ d ∈ (sortDemands l.demands).filter
      (fun d => decide (0 < d.energy_amount)),
      d.energy_amount = 0 ∨
      ∀ p ∈ (sortProductions l.productions).filter
        (fun p => decide (0 < p.energy_amount)),
        pairSkips d p l.participants := by
    intro d hd
    have hdD : d ∈ sortDemands l.demands := List.mem_of_mem_filter hd
    have hpos : (0 : Nat) < d.energy_amount := by simpa using List.of_mem_filter hd
    rcases hall d hdD with hz0 | hallp
    · omega
    · exact Or.inr (fun p hp => hallp p (List.mem_of_mem_filter hp))
  unfold matchTransactions
  simp only [hD, hP, outerLoop_of_skips _ _ _ t2 hsk]
  simp [List.filter_filter]

/-- C4 witness: a pass over a book with no demands appends no trades, and
re-invoking it returns the same ledger. -/
theorem matchTransactions_idempotent_witness :
    matchTransactions ⟨[⟨3, .Consumer, 5⟩], [⟨3, 4, 7⟩], [], []⟩ 5 =
      .ok ⟨[⟨3, .Consumer, 5⟩], [⟨3, 4, 7⟩], [], []⟩ :=
  matchTransactions_idempotent_of_no_trades
    ⟨[⟨3, .Consumer, 5⟩], [⟨3, 4, 7⟩], [], []⟩ 0 5
    ⟨[⟨3, .Consumer, 5⟩], [⟨3, 4, 7⟩], [], []⟩ rfl rfl

end EnergyMarket
